import Mathlib

set_option maxHeartbeats 1000000

namespace LlmsText

/-- Character-list test modelling Python str.startswith on the code points. -/
def listIsPref : List Char → List Char → Bool
  | [], _ => true
  | _ :: _, [] => false
  | a :: as, b :: bs => a == b && listIsPref as bs

/-- Python u.startswith(pre). -/
def strStartsWith (s pre : String) : Bool := listIsPref pre.data s.data

/-- Scan for an occurrence of pat at any position of the character list. -/
def listHasInfix (pat : List Char) : List Char → Bool
  | [] => listIsPref pat []
  | c :: rest => listIsPref pat (c :: rest) || listHasInfix pat rest

/-- Python membership test "needle in hay" on strings (substring containment). -/
def strIn (needle hay : String) : Bool := listHasInfix needle.data hay.data

/-- Python s.endswith(pat) for a single pattern string. -/
def strEndsWith (s pat : String) : Bool := listIsPref pat.data.reverse s.data.reverse

/-- The denylisted resource extensions from the crawl loop of
llms-txt-generator.py and enhanced_crawler.py. -/
def excludedExts : List String := [".pdf", ".jpg", ".png", ".gif", ".zip"]

/-- Python full_url.endswith((".pdf", ".jpg", ".png", ".gif", ".zip")). -/
def excludedExt (u : String) : Bool := excludedExts.any (fun e => strEndsWith u e)

/-- The observable outcome of fetching and parsing one URL: HTTP status, the
extracted title (soup.title with fallback already applied), and the list of
absolute link targets produced by urljoin over the anchors of the page.
requests.get plus BeautifulSoup parsing are external collaborators, so a
response is plain data here. -/
structure Resp where
  status : Nat
  title : String
  links : List String
deriving DecidableEq, Repr

/-- A finite site: the fixed response each URL would give. A URL absent from
the table models a transport-level failure (the exception branch). -/
abbrev Site := List (String × Resp)

/-- Model of requests.get url: the first table entry for the URL, if any. -/
def fetch (site : Site) (u : String) : Option Resp :=
  (site.find? (fun kv => kv.1 == u)).map (fun kv => kv.2)

/-- The mutable state of the crawl loop of crawl_site: the FIFO frontier
to_visit, the visited set, and the ordered Page Store pages. -/
structure CState where
  to_visit : List String
  visited : Finset String
  pages : List (String × String)
deriving DecidableEq

/-- The link-admission for-loop of crawl_site (llms-txt-generator.py lines
113-120): each link is appended to the back of the queue when it contains
base_url as a substring, is not in visited, is not already anywhere in the
current queue (including links appended earlier in the same loop), and does
not end with a denylisted extension. -/
def addLinks (base_url : String) (visited : Finset String)
    (q : List String) (links : List String) : List String :=
  links.foldl
    (fun q2 l =>
      if strIn base_url l = true ∧ l ∉ visited ∧ l ∉ q2 ∧ excludedExt l = false
      then q2 ++ [l] else q2)
    q

/-- The negation of the while-loop guard of crawl_site: the loop runs while
to_visit is non-empty and the visited set is below the budget. -/
def Halted (max_pages : Nat) (s : CState) : Prop :=
  s.to_visit = [] ∨ max_pages ≤ s.visited.card

instance (max_pages : Nat) (s : CState) : Decidable (Halted max_pages s) := by
  unfold Halted; exact inferInstance

/-- One iteration of the crawl loop body, guarded by the loop condition.
Pops the front URL; skips it when already visited or failing the startswith
scope check; skips on fetch failure or non-200 status; otherwise records the
page, appends admitted links, and marks the URL visited (the visited.add
comes after the link loop in the source, so the link filter uses the visited
set without the current URL). -/
def iter (site : Site) (base_url : String) (max_pages : Nat) (s : CState) : CState :=
  if Halted max_pages s then s else
  match s.to_visit with
  | [] => s
  | u :: rest =>
    if u ∈ s.visited ∨ strStartsWith u base_url = false then ⟨rest, s.visited, s.pages⟩
    else
      match fetch site u with
      | none => ⟨rest, s.visited, s.pages⟩
      | some r =>
        if r.status ≠ 200 then ⟨rest, s.visited, s.pages⟩
        else ⟨addLinks base_url s.visited rest r.links,
              insert u s.visited,
              s.pages ++ [(u, r.title)]⟩

/-- The URLs that can be fetched at all: the keys of the site table. -/
def siteKeys (site : Site) : Finset String := (site.map (fun kv => kv.1)).toFinset

/-- A bound on the number of links any single response can contribute. -/
def linkBound (site : Site) : Nat := (site.map (fun kv => kv.2.links.length)).sum

/-- Termination measure for the crawl loop: unvisited fetchable URLs weighted
by the maximal enqueue fan-out, plus the queue length. -/
def crawlMeasure (site : Site) (s : CState) : Nat :=
  (siteKeys site \ s.visited).card * (linkBound site + 1) + s.to_visit.length

/-- Initial crawl state: queue seeded with the base URL, nothing visited. -/
def initState (base_url : String) : CState := ⟨[base_url], ∅, []⟩

/-- The crawl loop of crawl_site run to completion, returning the final
state. Terminates because crawlMeasure strictly decreases each iteration. -/
def crawlLoop (site : Site) (base_url : String) (max_pages : Nat) (s : CState) : CState :=
  if h : Halted max_pages s then s
  else crawlLoop site base_url max_pages (iter site base_url max_pages s)
termination_by crawlMeasure site s
decreasing_by
  rcases hq : s.to_visit with _ | ⟨u, rest⟩
  · exact absurd (Or.inl hq) h
  · unfold iter
    rw [if_neg h, hq]
    dsimp only
    by_cases h1 : u ∈ s.visited ∨ strStartsWith u base_url = false
    · rw [if_pos h1]
      simp only [crawlMeasure, hq, List.length_cons]
      omega
    · rw [if_neg h1]
      push_neg at h1
      rcases hf : fetch site u with _ | r
      · simp only [crawlMeasure, hq, List.length_cons]; omega
      · dsimp only
        by_cases h2 : r.status ≠ 200
        · rw [if_pos h2]
          simp only [crawlMeasure, hq, List.length_cons]; omega
        · rw [if_neg h2]
          have hukeys : u ∈ siteKeys site := by
            rcases hfind : site.find? (fun kv => kv.1 == u) with _ | kv
            · simp [fetch, hfind] at hf
            · have hmem := List.mem_of_find?_eq_some hfind
              have heq : kv.1 = u := by
                have := List.find?_some hfind
                simpa using this
              simp only [siteKeys, List.mem_toFinset, List.mem_map]
              exact ⟨kv, hmem, heq⟩
          have hlinks : r.links.length ≤ linkBound site := by
            rcases hfind : site.find? (fun kv => kv.1 == u) with _ | kv
            · simp [fetch, hfind] at hf
            · have hmem := List.mem_of_find?_eq_some hfind
              have hr : kv.2 = r := by
                simp only [fetch, hfind, Option.map_some] at hf
                exact Option.some.inj hf
              have : kv.2.links.length ∈ site.map (fun kv => kv.2.links.length) :=
                List.mem_map_of_mem _ hmem
              calc r.links.length = kv.2.links.length := by rw [hr]
                _ ≤ linkBound site := List.single_le_sum (fun x _ => Nat.zero_le x) _ this
          have hqlen : (addLinks base_url s.visited rest r.links).length ≤
              rest.length + r.links.length := by
            clear hq h h1 h2 hf hukeys
            induction r.links generalizing rest with
            | nil => simp [addLinks]
            | cons l ls ih =>
              show (addLinks base_url s.visited
                (if strIn base_url l = true ∧ l ∉ s.visited ∧ l ∉ rest ∧
                    excludedExt l = false then rest ++ [l] else rest) ls).length ≤ _
              simp only [List.length_cons]
              split
              · have := ih (rest ++ [l])
                simp only [List.length_append, List.length_singleton] at this
                omega
              · have := ih rest
                omega
          have hcard : (siteKeys site \ insert u s.visited).card
              = (siteKeys site \ s.visited).card - 1 := by
            rw [Finset.sdiff_insert]
            exact Finset.card_erase_of_mem (Finset.mem_sdiff.mpr ⟨hukeys, h1.1⟩)
          have hpos : 0 < (siteKeys site \ s.visited).card :=
            Finset.card_pos.mpr ⟨u, Finset.mem_sdiff.mpr ⟨hukeys, h1.1⟩⟩
          simp only [crawlMeasure, hq, List.length_cons, hcard]
          rcases Nat.exists_eq_add_of_lt hpos with ⟨c, hc⟩
          rw [Nat.zero_add] at hc
          rw [hc]
          simp only [Nat.add_sub_cancel]
          have expand : (c + 1) * (linkBound site + 1)
              = c * (linkBound site + 1) + linkBound site + 1 := by ring
          linarith [hqlen, hlinks, expand]

/-- crawl_site from llms-txt-generator.py / enhanced_crawler.py: run the
crawl loop from the seeded state and return the Page Store. -/
def crawl_site (site : Site) (base_url : String) (max_pages : Nat) :
    List (String × String) :=
  (crawlLoop site base_url max_pages (initState base_url)).pages

/-- Locate the first occurrence of the scheme separator "://" and return the
characters after it; models the authority-locating step of urlparse. -/
def afterSchemeSep : List Char → Option (List Char)
  | [] => none
  | c :: rest =>
    if listIsPref [':', '/', '/'] (c :: rest) = true then some (rest.drop 2)
    else afterSchemeSep rest

/-- Drop the authority: keep the characters from the first slash onwards. -/
def dropToSlash : List Char → List Char
  | [] => []
  | c :: rest => if c = '/' then c :: rest else dropToSlash rest

/-- Cut the query and fragment off, as urlparse does before exposing .path. -/
def takeUntilQF (cs : List Char) : List Char :=
  cs.takeWhile (fun c => !(c == '?' || c == '#'))

/-- Model of urlparse(url).path for the absolute URLs the crawler records:
the slash-led part after the scheme and authority, without query/fragment. -/
def urlPath (url : String) : String :=
  match afterSchemeSep url.data with
  | some rest => ⟨takeUntilQF (dropToSlash rest)⟩
  | none => ⟨takeUntilQF url.data⟩

/-- Python path.strip(\x22/\x22): remove leading and trailing slashes. -/
def stripSlashes (s : String) : String :=
  ⟨((s.data.dropWhile (fun c => c == '/')).reverse.dropWhile (fun c => c == '/')).reverse⟩

/-- Python s.split(\x22/\x22): split on every slash; the empty string yields
the singleton list holding the empty string. -/
def splitOnSlash : List Char → List (List Char)
  | [] => [[]]
  | c :: rest =>
    if c = '/' then [] :: splitOnSlash rest
    else
      match splitOnSlash rest with
      | [] => [[c]]
      | p :: ps => (c :: p) :: ps

/-- The section key of a URL in group_and_format: the first path segment of
the slash-stripped path, or "Home" when that segment is empty. -/
def top_section (url : String) : String :=
  match splitOnSlash (stripSlashes (urlPath url)).data with
  | [] => "Home"
  | p :: _ => if p = [] then "Home" else ⟨p⟩

/-- Append an entry to the group of key k, creating the group at the end on
first sight of k: the insertion behaviour of defaultdict(list). -/
def insertGrouped : List (String × List (String × String)) → String →
    (String × String) → List (String × List (String × String))
  | [], k, e => [(k, [e])]
  | (k2, pl) :: rest, k, e =>
    if k2 = k then (k2, pl ++ [e]) :: rest
    else (k2, pl) :: insertGrouped rest k e

/-- The grouped dictionary of group_and_format: every (url, title) page is
appended as (title, url) to the group of its top_section key. -/
def groupPages (pages : List (String × String)) :
    List (String × List (String × String)) :=
  pages.foldl (fun g p => insertGrouped g (top_section p.1) (p.2, p.1)) []

/-- Lookup of a key in a grouped association list, with the defaultdict
default of the empty list. -/
def lookupG (g : List (String × List (String × String))) (k : String) :
    List (String × String) :=
  ((g.find? (fun kv => kv.1 == k)).map (fun kv => kv.2)).getD []

/-- Lookup grouped[k] with the defaultdict default of the empty list. -/
def groupOf (pages : List (String × String)) (k : String) :
    List (String × String) :=
  lookupG (groupPages pages) k

/-- Stable insertion into a sorted list: the new element goes before the
first element it compares le to, hence after earlier equal elements. -/
def ordInsert {α : Type} (le : α → α → Bool) (a : α) : List α → List α
  | [] => [a]
  | b :: l => if le a b then a :: b :: l else b :: ordInsert le a l

/-- Stable insertion sort, the behaviour guaranteed by Python sorted. -/
def insSort {α : Type} (le : α → α → Bool) : List α → List α
  | [] => []
  | a :: l => ordInsert le a (insSort le l)

/-- Lexicographic comparison of strings, as Python sorted uses on str. -/
def strLe (a b : String) : Bool := decide (a ≤ b)

/-- Comparison by URL length used for the within-section link ordering. -/
def lenLe (a b : String × String) : Bool := decide (a.2.length ≤ b.2.length)

/-- The emission order of sections: keys sorted lexicographically, with
"Home" removed and put first when present. -/
def sectionsOf (pages : List (String × String)) : List String :=
  let sk := insSort strLe ((groupPages pages).map Prod.fst)
  if "Home" ∈ sk then "Home" :: sk.erase "Home" else sk

/-- The emitted order of links inside one section: Python
sorted(grouped[section], key=lambda x: len(x[1])). -/
def sortedLinks (l : List (String × String)) : List (String × String) :=
  insSort lenLe l

/-- Python slug.replace(\x22-\x22, \x22 \x22).replace(\x22_\x22, \x22 \x22). -/
def dashToSpace (s : String) : String :=
  ⟨s.data.map (fun c => if c = '-' ∨ c = '_' then ' ' else c)⟩

/-- Helper for str.title: uppercase a letter at a word start, lowercase the
letters inside a word; the flag records whether the previous char was a letter. -/
def titleAux : Bool → List Char → List Char
  | _, [] => []
  | prevAlpha, c :: rest =>
    (if c.isAlpha then (if prevAlpha then c.toLower else c.toUpper) else c)
      :: titleAux c.isAlpha rest

/-- Python s.title(). -/
def strTitle (s : String) : String := ⟨titleAux false s.data⟩

/-- section_label from llms-txt-generator.py: dashes and underscores become
spaces, then title case. -/
def section_label (slug : String) : String := strTitle (dashToSpace slug)

/-- Helper for whitespace collapsing; the flag records whether the previous
character was whitespace. -/
def wsAux : Bool → List Char → List Char
  | _, [] => []
  | prevWs, c :: rest =>
    if c.isWhitespace then
      (if prevWs then wsAux true rest else ' ' :: wsAux true rest)
    else c :: wsAux false rest

/-- Python re.sub of whitespace runs by a single space, applied to titles. -/
def collapseWs (s : String) : String := ⟨wsAux false s.data⟩

/-- Python s.capitalize(), used for section headers in enhanced_crawler.py. -/
def capitalizeStr (s : String) : String :=
  match s.data with
  | [] => ""
  | c :: rest => ⟨c.toUpper :: rest.map Char.toLower⟩

/-- The bullet list emitted for one section. -/
def formatLinks (links : List (String × String)) : String :=
  links.foldl
    (fun acc tl => acc ++ "- [" ++ collapseWs tl.1 ++ "](" ++ tl.2 ++ ")\n") ""

namespace Generator

/-- group_and_format from llms-txt-generator.py: H1 title, blockquote
summary, then one H2 per section in sectionsOf order with its sorted links. -/
def group_and_format (pages : List (String × String))
    (site_name base_url : String) : String :=
  let header := "# " ++ site_name ++ "\n\n> Site map of " ++ site_name ++
    " (" ++ base_url ++ "), auto-generated for LLM context.\n\n"
  (sectionsOf pages).foldl
    (fun acc sec => acc ++ "## " ++ section_label sec ++ "\n\n" ++
      formatLinks (sortedLinks (groupOf pages sec)) ++ "\n")
    header

end Generator

namespace Enhanced

/-- group_and_format from enhanced_crawler.py: the same grouping and
ordering, but the header embeds the current date (datetime.now, passed here
explicitly as today) and section headers use str.capitalize. -/
def group_and_format (pages : List (String × String))
    (site_name today : String) : String :=
  let header := "# " ++ site_name ++ " – Auto-Generated Site Map\n\n" ++
    "> Automatically generated site map on " ++ today ++
    " for LLM understanding.\n\n"
  (sectionsOf pages).foldl
    (fun acc sec => acc ++ "## " ++ capitalizeStr sec ++ "\n\n" ++
      formatLinks (sortedLinks (groupOf pages sec)) ++ "\n")
    header

end Enhanced

/-- A URL the crawler can actually record: it passes the startswith scope
check and its fetch yields HTTP 200. -/
def FetchOk (site : Site) (base_url : String) (u : String) : Prop :=
  strStartsWith u base_url = true ∧ ∃ r, fetch site u = some r ∧ r.status = 200

/-- v is a link of u that the admission filter of the crawl loop can accept
regardless of crawl state: v occurs among the links of u's response,
contains base_url as a substring, and has no denylisted extension. -/
def LinkAdm (site : Site) (base_url : String) (u v : String) : Prop :=
  ∃ r, fetch site u = some r ∧ v ∈ r.links ∧ strIn base_url v = true ∧
    excludedExt v = false

/-- The reachable in-scope link graph: URLs reachable from the base URL
through fetchable in-scope pages via admissible links. -/
inductive Reach (site : Site) (base_url : String) : String → Prop where
  | base : Reach site base_url base_url
  | step : ∀ u v, Reach site base_url u → FetchOk site base_url u →
      LinkAdm site base_url u v → Reach site base_url v

/-- Reachability from the pending queue avoiding the visited set: the
completeness invariant of the BFS frontier. -/
inductive RF (site : Site) (base_url : String) (q : List String)
    (V : Finset String) : String → Prop where
  | base : ∀ v, v ∈ q → RF site base_url q V v
  | step : ∀ u v, RF site base_url q V u → u ∉ V → FetchOk site base_url u →
      LinkAdm site base_url u v → RF site base_url q V v

/-- Invariant: the visited set is exactly the set of recorded page URLs and
those URLs are pairwise distinct. -/
def VP (s : CState) : Prop :=
  s.visited = (s.pages.map Prod.fst).toFinset ∧ (s.pages.map Prod.fst).Nodup

/-- Invariant: the visited set stays within the page budget. -/
def CardLe (max_pages : Nat) (s : CState) : Prop := s.visited.card ≤ max_pages

/-- Invariant: every recorded page passed the scope check and was fetched
with status 200. -/
def PagesOk (site : Site) (base_url : String) (s : CState) : Prop :=
  ∀ p ∈ s.pages, strStartsWith p.1 base_url = true ∧
    ∃ r, fetch site p.1 = some r ∧ r.status = 200

/-- Invariant: every visited URL was fetched successfully with status 200. -/
def VisitedOk (site : Site) (s : CState) : Prop :=
  ∀ w ∈ s.visited, ∃ r, fetch site w = some r ∧ r.status = 200

/-- Invariant: apart from the seeded base URL, no queued URL carries a
denylisted extension. -/
def QueueOk (base_url : String) (s : CState) : Prop :=
  ∀ v ∈ s.to_visit, v = base_url ∨ excludedExt v = false

/-- Invariant: apart from the base URL itself, no recorded page URL carries
a denylisted extension. -/
def PagesExt (base_url : String) (s : CState) : Prop :=
  ∀ p ∈ s.pages, p.1 = base_url ∨ excludedExt p.1 = false

/-- BFS completeness invariant: every reachable fetchable in-scope URL is
either already visited or still reachable from the pending queue while
avoiding visited pages. -/
def JInv (site : Site) (base_url : String) (s : CState) : Prop :=
  ∀ v, Reach site base_url v → FetchOk site base_url v →
    v ∈ s.visited ∨ RF site base_url s.to_visit s.visited v

/-- One-page site used by several witnesses. -/
def siteW : Site := [("https://w.test", ⟨200, "W", []⟩)]

/-- Site whose base URL itself ends in a denylisted extension. -/
def siteC4 : Site := [("https://x.test/doc.pdf", ⟨200, "PDF", []⟩)]

/-- A link that contains the origin as a substring without starting with it. -/
def linkC5 : String := "https://evil.test/?u=https://x.test"

/-- Site whose start page links to linkC5. -/
def siteC5 : Site := [("https://x.test", ⟨200, "X", [linkC5]⟩)]

/-- Site with one URL answering 404 next to reachable healthy pages. -/
def siteC6 : Site :=
  [("https://s.test", ⟨200, "S", ["https://s.test/bad", "https://s.test/ok"]⟩),
   ("https://s.test/bad", ⟨404, "B", []⟩),
   ("https://s.test/ok", ⟨200, "OK", []⟩)]

/-- Page Store used by the formatter determinism counterexample. -/
def pagesC9 : List (String × String) := [("https://x.test/", "T")]

/-- Small Page Store with two sections for the formatter witnesses. -/
def pagesW : List (String × String) :=
  [("https://x.test/", "Home Page"), ("https://x.test/a/1", "A One"),
   ("https://x.test/a/22", "A Two")]

/-- Page Store holding only the origin page, whose section is "Home". -/
def pagesH : List (String × String) := [("https://x.test/", "Home Page")]

theorem iter_halted (site : Site) (base_url : String) (max_pages : Nat)
    (s : CState) (h : Halted max_pages s) : iter site base_url max_pages s = s := by
  unfold iter; rw [if_pos h]

theorem addLinks_length_le (base_url : String) (V : Finset String)
    (ls : List String) : ∀ q : List String,
    (addLinks base_url V q ls).length ≤ q.length + ls.length := by
  induction ls with
  | nil => intro q; simp [addLinks]
  | cons l ls ih =>
    intro q
    show (addLinks base_url V
      (if strIn base_url l = true ∧ l ∉ V ∧ l ∉ q ∧
          excludedExt l = false then q ++ [l] else q) ls).length ≤ _
    simp only [List.length_cons]
    split
    · have := ih (q ++ [l])
      simp only [List.length_append, List.length_singleton] at this
      omega
    · have := ih q
      omega

theorem iter_cases (site : Site) (base_url : String) (max_pages : Nat)
    (s : CState) (hnh : ¬Halted max_pages s) :
    ∃ u rest, s.to_visit = u :: rest ∧
      ((iter site base_url max_pages s = ⟨rest, s.visited, s.pages⟩ ∧
        (u ∈ s.visited ∨ strStartsWith u base_url = false ∨
          ∀ r, fetch site u = some r → r.status ≠ 200)) ∨
       (∃ r, fetch site u = some r ∧ r.status = 200 ∧ u ∉ s.visited ∧
         strStartsWith u base_url = true ∧
         iter site base_url max_pages s =
           ⟨addLinks base_url s.visited rest r.links, insert u s.visited,
            s.pages ++ [(u, r.title)]⟩)) := by
  rcases hq : s.to_visit with _ | ⟨u, rest⟩
  · exact absurd (Or.inl hq) hnh
  refine ⟨u, rest, rfl, ?_⟩
  unfold iter
  rw [if_neg hnh, hq]
  dsimp only
  by_cases h1 : u ∈ s.visited ∨ strStartsWith u base_url = false
  · rw [if_pos h1]
    refine Or.inl ⟨rfl, ?_⟩
    rcases h1 with h | h
    · exact Or.inl h
    · exact Or.inr (Or.inl h)
  · rw [if_neg h1]
    push_neg at h1
    rcases hf : fetch site u with _ | r
    · dsimp only
      refine Or.inl ⟨rfl, Or.inr (Or.inr ?_)⟩
      intro r2 hr2
      simp at hr2
    · dsimp only
      by_cases h2 : r.status ≠ 200
      · rw [if_pos h2]
        refine Or.inl ⟨rfl, Or.inr (Or.inr ?_)⟩
        intro r2 hr2
        cases hr2
        exact h2
      · rw [if_neg h2]
        push_neg at h2
        exact Or.inr ⟨r, rfl, h2, h1.1, by simpa using h1.2, rfl⟩

theorem iter_measure_lt (site : Site) (base_url : String) (max_pages : Nat)
    (s : CState) (h : ¬Halted max_pages s) :
    crawlMeasure site (iter site base_url max_pages s) < crawlMeasure site s := by
  obtain ⟨u, rest, hq, hcase⟩ := iter_cases site base_url max_pages s h
  rcases hcase with ⟨heq, _⟩ | ⟨r, hf, _, hu, _, heq⟩
  · rw [heq]
    simp only [crawlMeasure, hq, List.length_cons]
    omega
  · rw [heq]
    have hukeys : u ∈ siteKeys site := by
      rcases hfind : site.find? (fun kv => kv.1 == u) with _ | kv
      · simp [fetch, hfind] at hf
      · have hmem := List.mem_of_find?_eq_some hfind
        have heq2 : kv.1 = u := by
          have := List.find?_some hfind
          simpa using this
        simp only [siteKeys, List.mem_toFinset, List.mem_map]
        exact ⟨kv, hmem, heq2⟩
    have hlinks : r.links.length ≤ linkBound site := by
      rcases hfind : site.find? (fun kv => kv.1 == u) with _ | kv
      · simp [fetch, hfind] at hf
      · have hmem := List.mem_of_find?_eq_some hfind
        have hr : kv.2 = r := by
          simp only [fetch, hfind, Option.map_some] at hf
          exact Option.some.inj hf
        have hmem2 : kv.2.links.length ∈ site.map (fun kv => kv.2.links.length) :=
          List.mem_map_of_mem _ hmem
        calc r.links.length = kv.2.links.length := by rw [hr]
          _ ≤ linkBound site := List.single_le_sum (fun x _ => Nat.zero_le x) _ hmem2
    have hqlen : (addLinks base_url s.visited rest r.links).length ≤
        rest.length + r.links.length := addLinks_length_le base_url s.visited r.links rest
    have hcard : (siteKeys site \ insert u s.visited).card
        = (siteKeys site \ s.visited).card - 1 := by
      rw [Finset.sdiff_insert]
      exact Finset.card_erase_of_mem (Finset.mem_sdiff.mpr ⟨hukeys, hu⟩)
    have hpos : 0 < (siteKeys site \ s.visited).card :=
      Finset.card_pos.mpr ⟨u, Finset.mem_sdiff.mpr ⟨hukeys, hu⟩⟩
    simp only [crawlMeasure, hq, List.length_cons, hcard]
    rcases Nat.exists_eq_add_of_lt hpos with ⟨c, hc⟩
    rw [Nat.zero_add] at hc
    rw [hc]
    simp only [Nat.add_sub_cancel]
    have expand : (c + 1) * (linkBound site + 1)
        = c * (linkBound site + 1) + linkBound site + 1 := by ring
    linarith [hqlen, hlinks, expand]

theorem crawlLoop_unfold (site : Site) (base_url : String) (max_pages : Nat)
    (s : CState) : crawlLoop site base_url max_pages s =
      if Halted max_pages s then s
      else crawlLoop site base_url max_pages (iter site base_url max_pages s) := by
  rw [crawlLoop]
  by_cases h : Halted max_pages s
  · rw [dif_pos h, if_pos h]
  · rw [dif_neg h, if_neg h]

theorem crawlLoop_halt (site : Site) (base_url : String) (max_pages : Nat)
    (s : CState) (h : Halted max_pages s) :
    crawlLoop site base_url max_pages s = s := by
  rw [crawlLoop_unfold, if_pos h]

theorem crawlLoop_step (site : Site) (base_url : String) (max_pages : Nat)
    (s : CState) (h : ¬Halted max_pages s) :
    crawlLoop site base_url max_pages s =
      crawlLoop site base_url max_pages (iter site base_url max_pages s) := by
  rw [crawlLoop_unfold, if_neg h]

theorem crawlLoop_inv (site : Site) (base_url : String) (max_pages : Nat)
    (P : CState → Prop)
    (hstep : ∀ s, ¬Halted max_pages s → P s → P (iter site base_url max_pages s)) :
    ∀ s, P s → P (crawlLoop site base_url max_pages s) := by
  have key : ∀ n s, crawlMeasure site s ≤ n → P s →
      P (crawlLoop site base_url max_pages s) := by
    intro n
    induction n with
    | zero =>
      intro s hle hP
      by_cases h : Halted max_pages s
      · rwa [crawlLoop_halt site base_url max_pages s h]
      · exact absurd (iter_measure_lt site base_url max_pages s h) (by omega)
    | succ n ih =>
      intro s hle hP
      by_cases h : Halted max_pages s
      · rwa [crawlLoop_halt site base_url max_pages s h]
      · rw [crawlLoop_step site base_url max_pages s h]
        have hlt := iter_measure_lt site base_url max_pages s h
        exact ih _ (by omega) (hstep s h hP)
  intro s
  exact key (crawlMeasure site s) s le_rfl

theorem iterate_inv (site : Site) (base_url : String) (max_pages : Nat)
    (P : CState → Prop)
    (hstep : ∀ s, ¬Halted max_pages s → P s → P (iter site base_url max_pages s)) :
    ∀ n s, P s → P ((iter site base_url max_pages)^[n] s) := by
  intro n
  induction n with
  | zero => intro s hP; simpa using hP
  | succ n ih =>
    intro s hP
    rw [Function.iterate_succ_apply]
    refine ih _ ?_
    by_cases h : Halted max_pages s
    · rwa [iter_halted site base_url max_pages s h]
    · exact hstep s h hP

theorem exists_halted_iterate (site : Site) (base_url : String)
    (max_pages : Nat) (s : CState) :
    ∃ n, (iter site base_url max_pages)^[n] s = crawlLoop site base_url max_pages s ∧
      Halted max_pages (crawlLoop site base_url max_pages s) := by
  have key : ∀ N s, crawlMeasure site s ≤ N →
      ∃ n, (iter site base_url max_pages)^[n] s =
        crawlLoop site base_url max_pages s ∧
        Halted max_pages (crawlLoop site base_url max_pages s) := by
    intro N
    induction N with
    | zero =>
      intro s hle
      by_cases h : Halted max_pages s
      · exact ⟨0, by simp [crawlLoop_halt site base_url max_pages s h],
          by rwa [crawlLoop_halt site base_url max_pages s h]⟩
      · exact absurd (iter_measure_lt site base_url max_pages s h) (by omega)
    | succ N ih =>
      intro s hle
      by_cases h : Halted max_pages s
      · exact ⟨0, by simp [crawlLoop_halt site base_url max_pages s h],
          by rwa [crawlLoop_halt site base_url max_pages s h]⟩
      · have hlt := iter_measure_lt site base_url max_pages s h
        obtain ⟨n, h1, h2⟩ := ih (iter site base_url max_pages s) (by omega)
        refine ⟨n + 1, ?_, ?_⟩
        · rw [Function.iterate_succ_apply, h1,
            ← crawlLoop_step site base_url max_pages s h]
        · rwa [crawlLoop_step site base_url max_pages s h]
  exact key (crawlMeasure site s) s le_rfl

theorem addLinks_nil (base_url : String) (V : Finset String) (q : List String) :
    addLinks base_url V q [] = q := rfl

theorem addLinks_cons (base_url : String) (V : Finset String) (q : List String)
    (l : String) (ls : List String) :
    addLinks base_url V q (l :: ls) =
      addLinks base_url V
        (if strIn base_url l = true ∧ l ∉ V ∧ l ∉ q ∧ excludedExt l = false
         then q ++ [l] else q) ls := rfl

theorem mem_addLinks_of_mem (base_url : String) (V : Finset String)
    (ls : List String) : ∀ q w, w ∈ q → w ∈ addLinks base_url V q ls := by
  induction ls with
  | nil => intro q w hw; rwa [addLinks_nil]
  | cons l ls ih =>
    intro q w hw
    rw [addLinks_cons]
    split
    · exact ih _ w (List.mem_append_left _ hw)
    · exact ih _ w hw

theorem addLinks_mem_cases (base_url : String) (V : Finset String)
    (ls : List String) : ∀ q w, w ∈ addLinks base_url V q ls →
      w ∈ q ∨ excludedExt w = false := by
  induction ls with
  | nil => intro q w hw; rw [addLinks_nil] at hw; exact Or.inl hw
  | cons l ls ih =>
    intro q w hw
    rw [addLinks_cons] at hw
    rcases ih _ w hw with h | h
    · by_cases hc : strIn base_url l = true ∧ l ∉ V ∧ l ∉ q ∧ excludedExt l = false
      · rw [if_pos hc] at h
        rcases List.mem_append.mp h with h2 | h2
        · exact Or.inl h2
        · rcases List.mem_singleton.mp h2 with rfl
          exact Or.inr hc.2.2.2
      · rw [if_neg hc] at h
        exact Or.inl h
    · exact Or.inr h

theorem addLinks_covers (base_url : String) (V : Finset String)
    (ls : List String) : ∀ q w, w ∈ ls → strIn base_url w = true →
      excludedExt w = false → w ∈ addLinks base_url V q ls ∨ w ∈ V := by
  induction ls with
  | nil => intro q w hw _ _; simp at hw
  | cons l ls ih =>
    intro q w hw hin hex
    rw [addLinks_cons]
    rcases List.mem_cons.mp hw with rfl | hw2
    · by_cases hv : w ∈ V
      · exact Or.inr hv
      by_cases hq2 : w ∈ q
      · refine Or.inl ?_
        split
        · exact mem_addLinks_of_mem base_url V ls _ w (List.mem_append_left _ hq2)
        · exact mem_addLinks_of_mem base_url V ls _ w hq2
      · rw [if_pos ⟨hin, hv, hq2, hex⟩]
        exact Or.inl (mem_addLinks_of_mem base_url V ls _ w
          (List.mem_append_right _ (List.mem_singleton_self w)))
    · exact ih _ w hw2 hin hex

theorem addLinks_new_spec (base_url : String) (V : Finset String)
    (ls : List String) : ∀ q, ∃ nw, addLinks base_url V q ls = q ++ nw ∧
      nw.Nodup ∧ ∀ v ∈ nw, strIn base_url v = true ∧ excludedExt v = false ∧
        v ∉ V ∧ v ∉ q := by
  induction ls with
  | nil =>
    intro q
    exact ⟨[], by simp [addLinks_nil], List.nodup_nil, by simp⟩
  | cons l ls ih =>
    intro q
    rw [addLinks_cons]
    by_cases hc : strIn base_url l = true ∧ l ∉ V ∧ l ∉ q ∧ excludedExt l = false
    · rw [if_pos hc]
      obtain ⟨nw, h1, h2, h3⟩ := ih (q ++ [l])
      refine ⟨l :: nw, by rw [h1]; simp, ?_, ?_⟩
      · refine List.nodup_cons.mpr ⟨?_, h2⟩
        intro hl
        exact (h3 l hl).2.2.2 (List.mem_append_right _ (List.mem_singleton_self l))
      · intro v hv
        rcases List.mem_cons.mp hv with rfl | hv2
        · exact ⟨hc.1, hc.2.2.2, hc.2.1, hc.2.2.1⟩
        · have h4 := h3 v hv2
          exact ⟨h4.1, h4.2.1, h4.2.2.1, fun hq => h4.2.2.2 (List.mem_append_left _ hq)⟩
    · rw [if_neg hc]
      exact ih q

theorem VP_step (site : Site) (base_url : String) (max_pages : Nat) :
    ∀ s, ¬Halted max_pages s → VP s → VP (iter site base_url max_pages s) := by
  intro s hnh hvp
  obtain ⟨u, rest, hq, hcase⟩ := iter_cases site base_url max_pages s hnh
  rcases hcase with ⟨heq, _⟩ | ⟨r, hf, hst, hu, hsw, heq⟩
  · rw [heq]; exact hvp
  · rw [heq]
    obtain ⟨h1, h2⟩ := hvp
    have hnotmem : u ∉ s.pages.map Prod.fst := by
      intro hmem
      exact hu (h1 ▸ List.mem_toFinset.mpr hmem)
    constructor
    · show insert u s.visited = ((s.pages ++ [(u, r.title)]).map Prod.fst).toFinset
      have hsimp : ((s.pages ++ [(u, r.title)]).map Prod.fst).toFinset =
          (s.pages.map Prod.fst).toFinset ∪ {u} := by simp
      rw [hsimp, ← h1, Finset.union_comm, ← Finset.insert_eq]
    · show ((s.pages ++ [(u, r.title)]).map Prod.fst).Nodup
      rw [List.map_append]
      refine List.Nodup.append h2 (by simp) ?_
      intro a ha hb
      simp only [List.map_cons, List.map_nil, List.mem_singleton] at hb
      subst hb
      exact hnotmem ha

theorem CardLe_step (site : Site) (base_url : String) (max_pages : Nat) :
    ∀ s, ¬Halted max_pages s → CardLe max_pages s →
      CardLe max_pages (iter site base_url max_pages s) := by
  intro s hnh hc
  have hlt : s.visited.card < max_pages := by
    by_contra hge
    exact hnh (Or.inr (by omega))
  obtain ⟨u, rest, hq, hcase⟩ := iter_cases site base_url max_pages s hnh
  rcases hcase with ⟨heq, _⟩ | ⟨r, hf, hst, hu, hsw, heq⟩
  · rw [heq]; exact hc
  · rw [heq]
    show (insert u s.visited).card ≤ max_pages
    have := Finset.card_insert_le u s.visited
    omega

theorem PagesOk_step (site : Site) (base_url : String) (max_pages : Nat) :
    ∀ s, ¬Halted max_pages s → PagesOk site base_url s →
      PagesOk site base_url (iter site base_url max_pages s) := by
  intro s hnh hp
  obtain ⟨u, rest, hq, hcase⟩ := iter_cases site base_url max_pages s hnh
  rcases hcase with ⟨heq, _⟩ | ⟨r, hf, hst, hu, hsw, heq⟩
  · rw [heq]; exact hp
  · rw [heq]
    intro p hp2
    rcases List.mem_append.mp hp2 with h | h
    · exact hp p h
    · rcases List.mem_singleton.mp h with rfl
      exact ⟨hsw, r, hf, hst⟩

theorem VisitedOk_step (site : Site) (base_url : String) (max_pages : Nat) :
    ∀ s, ¬Halted max_pages s → VisitedOk site s →
      VisitedOk site (iter site base_url max_pages s) := by
  intro s hnh hv
  obtain ⟨u, rest, hq, hcase⟩ := iter_cases site base_url max_pages s hnh
  rcases hcase with ⟨heq, _⟩ | ⟨r, hf, hst, hu, hsw, heq⟩
  · rw [heq]; exact hv
  · rw [heq]
    intro w hw
    rcases Finset.mem_insert.mp hw with rfl | hw2
    · exact ⟨r, hf, hst⟩
    · exact hv w hw2

theorem QueueExt_step (site : Site) (base_url : String) (max_pages : Nat) :
    ∀ s, ¬Halted max_pages s → QueueOk base_url s ∧ PagesExt base_url s →
      QueueOk base_url (iter site base_url max_pages s) ∧
        PagesExt base_url (iter site base_url max_pages s) := by
  intro s hnh hqp
  obtain ⟨hqok, hpok⟩ := hqp
  obtain ⟨u, rest, hq, hcase⟩ := iter_cases site base_url max_pages s hnh
  have hurest : ∀ v ∈ rest, v = base_url ∨ excludedExt v = false := by
    intro v hv
    exact hqok v (hq ▸ List.mem_cons_of_mem u hv)
  rcases hcase with ⟨heq, _⟩ | ⟨r, hf, hst, hu, hsw, heq⟩
  · rw [heq]
    exact ⟨hurest, hpok⟩
  · rw [heq]
    constructor
    · intro v hv
      rcases addLinks_mem_cases base_url s.visited r.links rest v hv with h | h
      · exact hurest v h
      · exact Or.inr h
    · intro p hp
      rcases List.mem_append.mp hp with h | h
      · exact hpok p h
      · rcases List.mem_singleton.mp h with rfl
        exact hqok u (hq ▸ List.mem_cons_self u rest)

theorem RF_nil (site : Site) (base_url : String) (V : Finset String)
    (v : String) : ¬RF site base_url [] V v := by
  intro h
  induction h with
  | base w hw => simp at hw
  | step w x _ _ _ _ ih => exact ih

theorem RF_skip (site : Site) (base_url : String) (u : String)
    (rest : List String) (V : Finset String)
    (hu : u ∈ V ∨ ¬FetchOk site base_url u) :
    ∀ v, RF site base_url (u :: rest) V v →
      v ∈ V ∨ RF site base_url rest V v ∨ v = u := by
  intro v h
  induction h with
  | base w hw =>
    rcases List.mem_cons.mp hw with rfl | hw2
    · exact Or.inr (Or.inr rfl)
    · exact Or.inr (Or.inl (RF.base w hw2))
  | step w x hrw hnw hok hadm ih =>
    rcases ih with h1 | h1 | rfl
    · exact absurd h1 hnw
    · exact Or.inr (Or.inl (RF.step w x h1 hnw hok hadm))
    · rcases hu with h2 | h2
      · exact absurd h2 hnw
      · exact absurd hok h2

theorem RF_succ (site : Site) (base_url : String) (u : String)
    (rest : List String) (V : Finset String) (q2 : List String)
    (hcov : ∀ w, LinkAdm site base_url u w → w ∈ V ∨ w ∈ q2)
    (hrest : ∀ w ∈ rest, w ∈ q2) :
    ∀ v, RF site base_url (u :: rest) V v →
      v ∈ insert u V ∨ RF site base_url q2 (insert u V) v := by
  intro v h
  induction h with
  | base w hw =>
    rcases List.mem_cons.mp hw with rfl | hw2
    · exact Or.inl (Finset.mem_insert_self w V)
    · exact Or.inr (RF.base w (hrest w hw2))
  | step w x hrw hnw hok hadm ih =>
    by_cases hwu : w = u
    · subst hwu
      rcases hcov x hadm with h1 | h1
      · exact Or.inl (Finset.mem_insert_of_mem h1)
      · exact Or.inr (RF.base x h1)
    · rcases ih with h1 | h1
      · rcases Finset.mem_insert.mp h1 with h2 | h2
        · exact absurd h2 hwu
        · exact absurd h2 hnw
      · refine Or.inr (RF.step w x h1 ?_ hok hadm)
        intro hmem
        rcases Finset.mem_insert.mp hmem with h2 | h2
        · exact hwu h2
        · exact hnw h2

theorem JInv_step (site : Site) (base_url : String) (max_pages : Nat) :
    ∀ s, ¬Halted max_pages s → JInv site base_url s →
      JInv site base_url (iter site base_url max_pages s) := by
  intro s hnh hJ
  obtain ⟨u, rest, hq, hcase⟩ := iter_cases site base_url max_pages s hnh
  rcases hcase with ⟨heq, hskip⟩ | ⟨r, hf, hst, hu, hsw, heq⟩
  · rw [heq]
    intro v hr hok
    rcases hJ v hr hok with h1 | h1
    · exact Or.inl h1
    · rw [hq] at h1
      have hu2 : u ∈ s.visited ∨ ¬FetchOk site base_url u := by
        rcases hskip with h2 | h2 | h2
        · exact Or.inl h2
        · refine Or.inr fun hk => ?_
          rw [hk.1] at h2
          cases h2
        · refine Or.inr fun hk => ?_
          obtain ⟨r2, hf2, hst2⟩ := hk.2
          exact h2 r2 hf2 hst2
      rcases RF_skip site base_url u rest s.visited hu2 v h1 with h3 | h3 | rfl
      · exact Or.inl h3
      · exact Or.inr h3
      · rcases hu2 with h4 | h4
        · exact Or.inl h4
        · exact absurd hok h4
  · rw [heq]
    intro v hr hok
    rcases hJ v hr hok with h1 | h1
    · exact Or.inl (Finset.mem_insert_of_mem h1)
    · rw [hq] at h1
      refine RF_succ site base_url u rest s.visited
        (addLinks base_url s.visited rest r.links) ?_ ?_ v h1
      · intro w hadm
        obtain ⟨r2, hf2, hwl, hin, hex⟩ := hadm
        rw [hf] at hf2
        cases hf2
        rcases addLinks_covers base_url s.visited r.links rest w hwl hin hex with
          h2 | h2
        · exact Or.inr h2
        · exact Or.inl h2
      · intro w hw
        exact mem_addLinks_of_mem base_url s.visited r.links rest w hw

theorem JInv_init (site : Site) (base_url : String) :
    JInv site base_url (initState base_url) := by
  intro v hr hok
  clear hok
  right
  induction hr with
  | base => exact RF.base base_url (by simp [initState])
  | step u v _ hoku hadm ih => exact RF.step u v ih (by simp [initState]) hoku hadm

theorem VP_init (base_url : String) : VP (initState base_url) := by
  constructor <;> simp [initState]

/-- C1: in every run of crawl_site, each URL occurs at most once among the
URLs of the returned Page Store, however often it is discovered or
re-enqueued: the page is recorded only when the URL is absent from visited,
and the URL enters visited together with the record. -/
theorem crawl_site_at_most_once_visitation (site : Site) (base_url : String)
    (max_pages : Nat) (u : String) :
    ((crawl_site site base_url max_pages).map Prod.fst).count u ≤ 1 := by
  have hvp : VP (crawlLoop site base_url max_pages (initState base_url)) :=
    crawlLoop_inv site base_url max_pages VP (VP_step site base_url max_pages)
      (initState base_url) (VP_init base_url)
  exact List.nodup_iff_count_le_one.mp hvp.2 u

/-- C2: the Page Store never exceeds max_pages, and it reaches exactly
max_pages whenever the reachable in-scope link graph offers at least
max_pages fetchable nodes. -/
theorem crawl_site_budget_respect (site : Site) (base_url : String)
    (max_pages : Nat) :
    (crawl_site site base_url max_pages).length ≤ max_pages ∧
    ((∃ S : Finset String,
        (∀ u ∈ S, Reach site base_url u ∧ FetchOk site base_url u) ∧
        max_pages ≤ S.card) →
      (crawl_site site base_url max_pages).length = max_pages) := by
  have hvp : VP (crawlLoop site base_url max_pages (initState base_url)) :=
    crawlLoop_inv site base_url max_pages VP (VP_step site base_url max_pages)
      (initState base_url) (VP_init base_url)
  have hcard : CardLe max_pages (crawlLoop site base_url max_pages (initState base_url)) :=
    crawlLoop_inv site base_url max_pages (CardLe max_pages)
      (CardLe_step site base_url max_pages) (initState base_url)
      (by simp [CardLe, initState])
  have hcard2 : (crawlLoop site base_url max_pages (initState base_url)).visited.card
      ≤ max_pages := hcard
  have hlen : (crawl_site site base_url max_pages).length =
      (crawlLoop site base_url max_pages (initState base_url)).visited.card := by
    rw [hvp.1, List.toFinset_card_of_nodup hvp.2, List.length_map]
    rfl
  constructor
  · rw [hlen]; exact hcard2
  · rintro ⟨S, hS, hSc⟩
    obtain ⟨n, _, hhalt⟩ :=
      exists_halted_iterate site base_url max_pages (initState base_url)
    rcases hhalt with hempty | hbudget
    · have hJ : JInv site base_url (crawlLoop site base_url max_pages (initState base_url)) :=
        crawlLoop_inv site base_url max_pages (JInv site base_url)
          (JInv_step site base_url max_pages) (initState base_url)
          (JInv_init site base_url)
      have hsub : S ⊆ (crawlLoop site base_url max_pages (initState base_url)).visited := by
        intro v hv
        obtain ⟨hreach, hok⟩ := hS v hv
        rcases hJ v hreach hok with h | h
        · exact h
        · rw [hempty] at h
          exact absurd h (RF_nil site base_url _ v)
      have hle := Finset.card_le_card hsub
      rw [hlen]
      omega
    · rw [hlen]
      omega

/-- C2 witness: a one-page site with budget 1 yields exactly one page. -/
theorem crawl_site_budget_respect_witness :
    (crawl_site siteW "https://w.test" 1).length = 1 :=
  (crawl_site_budget_respect siteW "https://w.test" 1).2
    ⟨{"https://w.test"},
     fun u hu => by
       rw [Finset.mem_singleton] at hu
       subst hu
       exact ⟨Reach.base, by decide, ⟨200, "W", []⟩, rfl, rfl⟩,
     by decide⟩

/-- C3: for every finite site, origin, and budget, the crawl loop reaches
its final state in finitely many iterations, and that final state satisfies
the loop guard negation: either the frontier queue is empty or the visited
set has exactly max_pages elements; both are normal returns of the model,
which has no error outcome. -/
theorem crawl_site_termination (site : Site) (base_url : String)
    (max_pages : Nat) :
    ∃ n, (iter site base_url max_pages)^[n] (initState base_url) =
        crawlLoop site base_url max_pages (initState base_url) ∧
      Halted max_pages (crawlLoop site base_url max_pages (initState base_url)) ∧
      ((crawlLoop site base_url max_pages (initState base_url)).to_visit = [] ∨
        (crawlLoop site base_url max_pages (initState base_url)).visited.card
          = max_pages) := by
  obtain ⟨n, h1, h2⟩ :=
    exists_halted_iterate site base_url max_pages (initState base_url)
  have hcard : CardLe max_pages (crawlLoop site base_url max_pages (initState base_url)) :=
    crawlLoop_inv site base_url max_pages (CardLe max_pages)
      (CardLe_step site base_url max_pages) (initState base_url)
      (by simp [CardLe, initState])
  refine ⟨n, h1, h2, ?_⟩
  rcases h2 with h | h
  · exact Or.inl h
  · exact Or.inr (le_antisymm hcard h)

/-- C4 counterexample: when the configured base URL itself ends in a
denylisted extension, it is seeded into the frontier and recorded in the
Page Store, so an excluded-extension URL does appear in both. -/
theorem scope_filter_counterexample :
    crawl_site siteC4 "https://x.test/doc.pdf" 1 =
      [("https://x.test/doc.pdf", "PDF")] ∧
    excludedExt "https://x.test/doc.pdf" = true ∧
    (initState "https://x.test/doc.pdf").to_visit = ["https://x.test/doc.pdf"] := by
  refine ⟨?_, by decide, by decide⟩
  show (crawlLoop siteC4 "https://x.test/doc.pdf" 1
    (initState "https://x.test/doc.pdf")).pages = _
  rw [crawlLoop_step _ _ _ _ (by decide)]
  rw [show iter siteC4 "https://x.test/doc.pdf" 1 (initState "https://x.test/doc.pdf")
      = ⟨[], {"https://x.test/doc.pdf"}, [("https://x.test/doc.pdf", "PDF")]⟩
    from by decide]
  rw [crawlLoop_halt _ _ _ _ (by decide)]

/-- C4 amended: every recorded page URL starts with base_url, and apart
from the seeded base URL itself no URL with a denylisted extension ever
enters the frontier queue or the Page Store. -/
theorem crawl_site_scope_closure (site : Site) (base_url : String)
    (max_pages : Nat) :
    (∀ p ∈ crawl_site site base_url max_pages,
      strStartsWith p.1 base_url = true ∧
      (p.1 = base_url ∨ excludedExt p.1 = false)) ∧
    (∀ n, ∀ v ∈ ((iter site base_url max_pages)^[n] (initState base_url)).to_visit,
      v = base_url ∨ excludedExt v = false) := by
  have hinit : QueueOk base_url (initState base_url) ∧
      PagesExt base_url (initState base_url) := by
    constructor
    · intro v hv
      simp only [initState, List.mem_singleton] at hv
      exact Or.inl hv
    · intro p hp
      simp [initState] at hp
  have hpo : PagesOk site base_url (crawlLoop site base_url max_pages (initState base_url)) :=
    crawlLoop_inv site base_url max_pages (PagesOk site base_url)
      (PagesOk_step site base_url max_pages) (initState base_url)
      (by intro p hp; simp [initState] at hp)
  have hpe := crawlLoop_inv site base_url max_pages
    (fun s => QueueOk base_url s ∧ PagesExt base_url s)
    (QueueExt_step site base_url max_pages) (initState base_url) hinit
  constructor
  · intro p hp
    exact ⟨(hpo p hp).1, hpe.2 p hp⟩
  · intro n
    have := iterate_inv site base_url max_pages
      (fun s => QueueOk base_url s ∧ PagesExt base_url s)
      (QueueExt_step site base_url max_pages) n (initState base_url) hinit
    exact this.1

/-- C4 witness: after one iteration of the siteC6 crawl the queue holds an
in-scope URL, and the amended scope closure applies to it. -/
theorem crawl_site_scope_closure_witness :
    "https://s.test/ok" = "https://s.test" ∨
      excludedExt "https://s.test/ok" = false :=
  (crawl_site_scope_closure siteC6 "https://s.test" 10).2 1 "https://s.test/ok"
    (by decide)

/-- C5 counterexample: the first iteration of the siteC5 crawl appends a
candidate to the frontier queue that merely contains the origin as a
substring and does not begin with it. -/
theorem frontier_admission_counterexample :
    (iter siteC5 "https://x.test" 10 (initState "https://x.test")).to_visit
      = [linkC5] ∧
    strStartsWith linkC5 "https://x.test" = false ∧
    strIn "https://x.test" linkC5 = true := by
  refine ⟨by decide, by decide, by decide⟩

/-- C5 amended: every candidate the admission loop appends contains the
origin as a substring (the startswith scope check is applied only later,
when the URL is popped), has no denylisted extension, and at the moment of
appending is neither in the visited set nor anywhere in the queue; the
newly appended candidates are pairwise distinct. -/
theorem frontier_admission_amended (base_url : String) (V : Finset String)
    (q ls : List String) :
    ∃ nw, addLinks base_url V q ls = q ++ nw ∧ nw.Nodup ∧
      ∀ v ∈ nw, strIn base_url v = true ∧ excludedExt v = false ∧
        v ∉ V ∧ v ∉ q :=
  addLinks_new_spec base_url V ls q

/-- C5 witness: the amended admission property at a concrete call. -/
theorem frontier_admission_witness :
    ∃ nw, addLinks "https://x.test" ∅ [] ["https://x.test/a"] = [] ++ nw ∧
      nw.Nodup ∧ ∀ v ∈ nw, strIn "https://x.test" v = true ∧
        excludedExt v = false ∧ v ∉ (∅ : Finset String) ∧
        v ∉ ([] : List String) :=
  frontier_admission_amended "https://x.test" ∅ [] ["https://x.test/a"]

/-- C6: a URL whose fetch fails at transport level or returns non-200 is
skipped without touching visited or pages, the crawl continues on the rest
of the queue, the URL never enters the visited set of the run, and no page
is ever recorded for it. -/
theorem failed_fetch_skipped (site : Site) (base_url : String)
    (max_pages : Nat) (u : String) (rest : List String) (V : Finset String)
    (P : List (String × String))
    (hfail : ∀ r, fetch site u = some r → r.status ≠ 200) :
    (crawlLoop site base_url max_pages ⟨u :: rest, V, P⟩).pages =
      (crawlLoop site base_url max_pages ⟨rest, V, P⟩).pages ∧
    (crawlLoop site base_url max_pages ⟨u :: rest, V, P⟩).visited =
      (crawlLoop site base_url max_pages ⟨rest, V, P⟩).visited ∧
    u ∉ (crawlLoop site base_url max_pages (initState base_url)).visited ∧
    ∀ p ∈ crawl_site site base_url max_pages, p.1 ≠ u := by
  have hstep : (crawlLoop site base_url max_pages ⟨u :: rest, V, P⟩).pages =
      (crawlLoop site base_url max_pages ⟨rest, V, P⟩).pages ∧
      (crawlLoop site base_url max_pages ⟨u :: rest, V, P⟩).visited =
        (crawlLoop site base_url max_pages ⟨rest, V, P⟩).visited := by
    by_cases hh : Halted max_pages ⟨u :: rest, V, P⟩
    · have hh2 : Halted max_pages ⟨rest, V, P⟩ := by
        rcases hh with h | h
        · simp at h
        · exact Or.inr h
      rw [crawlLoop_halt _ _ _ _ hh, crawlLoop_halt _ _ _ _ hh2]
      exact ⟨rfl, rfl⟩
    · have hiter : iter site base_url max_pages ⟨u :: rest, V, P⟩ = ⟨rest, V, P⟩ := by
        obtain ⟨u2, rest2, hq, hcase⟩ := iter_cases site base_url max_pages _ hh
        simp only at hq
        cases hq
        rcases hcase with ⟨heq, _⟩ | ⟨r, hf, hst, _, _, _⟩
        · exact heq
        · exact absurd hst (hfail r hf)
      rw [crawlLoop_step _ _ _ _ hh, hiter]
      exact ⟨rfl, rfl⟩
  have hvo : VisitedOk site (crawlLoop site base_url max_pages (initState base_url)) :=
    crawlLoop_inv site base_url max_pages (VisitedOk site)
      (VisitedOk_step site base_url max_pages) (initState base_url)
      (by intro w hw; simp [initState] at hw)
  have hpo : PagesOk site base_url (crawlLoop site base_url max_pages (initState base_url)) :=
    crawlLoop_inv site base_url max_pages (PagesOk site base_url)
      (PagesOk_step site base_url max_pages) (initState base_url)
      (by intro p hp; simp [initState] at hp)
  refine ⟨hstep.1, hstep.2, ?_, ?_⟩
  · intro hu
    obtain ⟨r, hr, hst⟩ := hvo u hu
    exact hfail r hr hst
  · intro p hp hpu
    obtain ⟨r, hr, hst⟩ := (hpo p hp).2
    rw [hpu] at hr
    exact hfail r hr hst

/-- C6 witness: in siteC6 the URL answering 404 is skipped and the crawl of
the remaining queue is unchanged by its presence at the front. -/
theorem failed_fetch_skipped_witness :
    (crawlLoop siteC6 "https://s.test" 10 ⟨["https://s.test/bad"], ∅, []⟩).pages =
      (crawlLoop siteC6 "https://s.test" 10 ⟨[], ∅, []⟩).pages ∧
    ∀ p ∈ crawl_site siteC6 "https://s.test" 10, p.1 ≠ "https://s.test/bad" := by
  have h := failed_fetch_skipped siteC6 "https://s.test" 10 "https://s.test/bad"
    [] ∅ []
    (by
      intro r hr
      rw [show fetch siteC6 "https://s.test/bad" = some ⟨404, "B", []⟩ from rfl] at hr
      cases hr
      decide)
  exact ⟨h.1, h.2.2.2⟩

/-- C10: at every iterate of the crawl loop, and hence at return, every URL
of the visited set has a corresponding recorded page: a URL enters visited
only in the same step that appends its page. -/
theorem visited_subset_pages (site : Site) (base_url : String)
    (max_pages : Nat) (n : Nat) (u : String)
    (hu : u ∈ ((iter site base_url max_pages)^[n] (initState base_url)).visited) :
    u ∈ ((iter site base_url max_pages)^[n] (initState base_url)).pages.map
      Prod.fst := by
  have hvp : VP ((iter site base_url max_pages)^[n] (initState base_url)) :=
    iterate_inv site base_url max_pages VP (VP_step site base_url max_pages) n
      (initState base_url) (VP_init base_url)
  rw [hvp.1] at hu
  exact List.mem_toFinset.mp hu

/-- C10 witness: after one iteration of the siteW crawl the base URL is
visited and indeed recorded among the page URLs. -/
theorem visited_subset_pages_witness :
    "https://w.test" ∈
      ((iter siteW "https://w.test" 1)^[1] (initState "https://w.test")).pages.map
        Prod.fst :=
  visited_subset_pages siteW "https://w.test" 1 1 "https://w.test" (by decide)

theorem mem_ordInsert {α : Type} (le : α → α → Bool) (a x : α) (l : List α) :
    x ∈ ordInsert le a l ↔ x = a ∨ x ∈ l := by
  induction l with
  | nil => simp [ordInsert]
  | cons b l ih =>
    unfold ordInsert
    split
    · constructor
      · intro h
        rcases List.mem_cons.mp h with rfl | h2
        · exact Or.inl rfl
        · exact Or.inr h2
      · intro h
        rcases h with rfl | h2
        · exact List.mem_cons_self _ _
        · exact List.mem_cons_of_mem _ h2
    · constructor
      · intro h
        rcases List.mem_cons.mp h with rfl | h2
        · exact Or.inr (List.mem_cons_self _ _)
        · rcases ih.mp h2 with rfl | h3
          · exact Or.inl rfl
          · exact Or.inr (List.mem_cons_of_mem _ h3)
      · intro h
        rcases h with rfl | h2
        · exact List.mem_cons_of_mem _ (ih.mpr (Or.inl rfl))
        · rcases List.mem_cons.mp h2 with rfl | h3
          · exact List.mem_cons_self _ _
          · exact List.mem_cons_of_mem _ (ih.mpr (Or.inr h3))

theorem ordInsert_perm {α : Type} (le : α → α → Bool) (a : α) (l : List α) :
    (ordInsert le a l).Perm (a :: l) := by
  induction l with
  | nil => exact List.Perm.refl _
  | cons b l ih =>
    unfold ordInsert
    split
    · exact List.Perm.refl _
    · exact ((ih.cons b).trans (List.Perm.swap a b l))

theorem insSort_perm {α : Type} (le : α → α → Bool) (l : List α) :
    (insSort le l).Perm l := by
  induction l with
  | nil => exact List.Perm.refl _
  | cons a l ih =>
    show (ordInsert le a (insSort le l)).Perm (a :: l)
    exact (ordInsert_perm le a (insSort le l)).trans (ih.cons a)

theorem ordInsert_sorted {α : Type} (le : α → α → Bool)
    (htot : ∀ a b, le a b = true ∨ le b a = true)
    (htrans : ∀ a b c, le a b = true → le b c = true → le a c = true)
    (a : α) (l : List α) (hl : l.Pairwise (fun x y => le x y = true)) :
    (ordInsert le a l).Pairwise (fun x y => le x y = true) := by
  induction l with
  | nil => simp [ordInsert]
  | cons b l ih =>
    rw [List.pairwise_cons] at hl
    unfold ordInsert
    split
    · rename_i h
      refine List.pairwise_cons.mpr ⟨?_, List.pairwise_cons.mpr hl⟩
      intro x hx
      rcases List.mem_cons.mp hx with rfl | hx2
      · exact h
      · exact htrans a b x h (hl.1 x hx2)
    · rename_i h
      refine List.pairwise_cons.mpr ⟨?_, ih hl.2⟩
      intro x hx
      rcases (mem_ordInsert le a x l).mp hx with rfl | hx2
      · rcases htot x b with h2 | h2
        · exact absurd h2 h
        · exact h2
      · exact hl.1 x hx2

theorem insSort_sorted {α : Type} (le : α → α → Bool)
    (htot : ∀ a b, le a b = true ∨ le b a = true)
    (htrans : ∀ a b c, le a b = true → le b c = true → le a c = true)
    (l : List α) : (insSort le l).Pairwise (fun x y => le x y = true) := by
  induction l with
  | nil => simp [insSort]
  | cons a l ih => exact ordInsert_sorted le htot htrans a (insSort le l) ih

theorem filter_ordInsert_pos {α : Type} (le : α → α → Bool) (p : α → Bool)
    (a : α) (hpa : p a = true)
    (hkey : ∀ b, p b = true → le a b = true) (l : List α) :
    (ordInsert le a l).filter p = a :: l.filter p := by
  induction l with
  | nil => simp [ordInsert, hpa]
  | cons b l ih =>
    unfold ordInsert
    split
    · simp [List.filter_cons, hpa]
    · rename_i h
      have hpb : p b = false := by
        rcases hb : p b with _ | _
        · rfl
        · exact absurd (hkey b hb) h
      simp [List.filter_cons, hpb, ih]

theorem filter_ordInsert_neg {α : Type} (le : α → α → Bool) (p : α → Bool)
    (a : α) (hpa : p a = false) (l : List α) :
    (ordInsert le a l).filter p = l.filter p := by
  induction l with
  | nil => simp [ordInsert, hpa]
  | cons b l ih =>
    unfold ordInsert
    split
    · simp [List.filter_cons, hpa]
    · simp [List.filter_cons, ih]

theorem insSort_filter {α : Type} (le : α → α → Bool) (p : α → Bool)
    (hkey : ∀ a b, p a = true → p b = true → le a b = true) (l : List α) :
    (insSort le l).filter p = l.filter p := by
  induction l with
  | nil => rfl
  | cons a l ih =>
    show (ordInsert le a (insSort le l)).filter p = (a :: l).filter p
    rcases hpa : p a with _ | _
    · rw [filter_ordInsert_neg le p a hpa, ih]
      simp [List.filter_cons, hpa]
    · rw [filter_ordInsert_pos le p a hpa (fun b hb => hkey a b hpa hb), ih]
      simp [List.filter_cons, hpa]

theorem insertGrouped_nil (k : String) (e : String × String) :
    insertGrouped [] k e = [(k, [e])] := rfl

theorem insertGrouped_cons (k2 : String) (pl : List (String × String))
    (g : List (String × List (String × String))) (k : String)
    (e : String × String) :
    insertGrouped ((k2, pl) :: g) k e =
      if k2 = k then (k2, pl ++ [e]) :: g
      else (k2, pl) :: insertGrouped g k e := rfl

theorem insertGrouped_keys (g : List (String × List (String × String)))
    (k : String) (e : String × String) :
    (insertGrouped g k e).map Prod.fst =
      if k ∈ g.map Prod.fst then g.map Prod.fst
      else g.map Prod.fst ++ [k] := by
  induction g with
  | nil => simp [insertGrouped_nil]
  | cons kv g ih =>
    obtain ⟨k2, pl⟩ := kv
    rw [insertGrouped_cons]
    by_cases h : k2 = k
    · subst h
      rw [if_pos rfl]
      simp
    · rw [if_neg h]
      simp only [List.map_cons]
      rw [ih]
      by_cases h2 : k ∈ g.map Prod.fst
      · rw [if_pos h2, if_pos (by simp [h2])]
      · rw [if_neg h2, if_neg ?_]
        · simp
        · simp only [List.mem_cons]
          push_neg
          exact ⟨fun he => h he.symm, h2⟩

theorem insertGrouped_keys_nodup (g : List (String × List (String × String)))
    (k : String) (e : String × String) (h : (g.map Prod.fst).Nodup) :
    ((insertGrouped g k e).map Prod.fst).Nodup := by
  rw [insertGrouped_keys]
  split
  · exact h
  · rename_i hk
    refine List.Nodup.append h (by simp) ?_
    intro a ha hb
    rcases List.mem_singleton.mp hb with rfl
    exact hk ha

theorem insertGrouped_consistent (g : List (String × List (String × String)))
    (k : String) (e : String × String)
    (hg : ∀ kv ∈ g, ∀ x ∈ kv.2, top_section x.2 = kv.1)
    (he : top_section e.2 = k) :
    ∀ kv ∈ insertGrouped g k e, ∀ x ∈ kv.2, top_section x.2 = kv.1 := by
  induction g with
  | nil =>
    intro kv hkv x hx
    rw [insertGrouped_nil] at hkv
    rcases List.mem_singleton.mp hkv with rfl
    rcases List.mem_singleton.mp hx with rfl
    exact he
  | cons kv2 g ih =>
    obtain ⟨k2, pl⟩ := kv2
    rw [insertGrouped_cons]
    by_cases h : k2 = k
    · rw [if_pos h]
      intro kv hkv x hx
      rcases List.mem_cons.mp hkv with rfl | hkv2
      · rcases List.mem_append.mp hx with h2 | h2
        · exact hg (k2, pl) (List.mem_cons_self _ _) x h2
        · rcases List.mem_singleton.mp h2 with rfl
          rw [he, h]
      · exact hg kv (List.mem_cons_of_mem _ hkv2) x hx
    · rw [if_neg h]
      intro kv hkv x hx
      rcases List.mem_cons.mp hkv with rfl | hkv2
      · exact hg (k2, pl) (List.mem_cons_self _ _) x hx
      · exact ih (fun kv3 hkv3 => hg kv3 (List.mem_cons_of_mem _ hkv3)) kv hkv2 x hx

theorem insertGrouped_flatten (g : List (String × List (String × String)))
    (k : String) (e : String × String) :
    ((insertGrouped g k e).map Prod.snd).flatten.Perm
      ((g.map Prod.snd).flatten ++ [e]) := by
  induction g with
  | nil => simp [insertGrouped_nil]
  | cons kv2 g ih =>
    obtain ⟨k2, pl⟩ := kv2
    rw [insertGrouped_cons]
    by_cases h : k2 = k
    · rw [if_pos h]
      simp only [List.map_cons, List.flatten_cons]
      rw [List.append_assoc, List.append_assoc]
      exact List.Perm.append_left pl List.perm_append_comm
    · rw [if_neg h]
      simp only [List.map_cons, List.flatten_cons]
      rw [List.append_assoc]
      exact List.Perm.append_left pl ih

theorem lookupG_nil (k : String) : lookupG [] k = [] := rfl

theorem lookupG_cons (k3 : String) (pl : List (String × String))
    (g : List (String × List (String × String))) (k : String) :
    lookupG ((k3, pl) :: g) k = if k3 = k then pl else lookupG g k := by
  by_cases h : k3 = k
  · rw [if_pos h]
    unfold lookupG
    rw [List.find?_cons_of_pos _ (by simpa using h)]
    rfl
  · rw [if_neg h]
    unfold lookupG
    rw [List.find?_cons_of_neg _ (by simpa using h)]

theorem lookupG_insertGrouped (g : List (String × List (String × String)))
    (k e_k : String) (e : String × String) :
    lookupG (insertGrouped g e_k e) k =
      if e_k = k then lookupG g k ++ [e] else lookupG g k := by
  induction g with
  | nil =>
    rw [insertGrouped_nil, lookupG_cons, lookupG_nil]
    by_cases h : e_k = k
    · rw [if_pos h, if_pos h]
      simp
    · rw [if_neg h, if_neg h]
  | cons kv2 g ih =>
    obtain ⟨k3, pl⟩ := kv2
    rw [insertGrouped_cons]
    by_cases h3 : k3 = e_k
    · rw [if_pos h3, lookupG_cons, lookupG_cons]
      by_cases h32 : k3 = k
      · have he : e_k = k := h3.symm.trans h32
        rw [if_pos h32, if_pos h32, if_pos he]
      · have he : ¬e_k = k := fun he2 => h32 (h3.trans he2)
        rw [if_neg h32, if_neg h32, if_neg he]
    · rw [if_neg h3, lookupG_cons, lookupG_cons]
      by_cases h32 : k3 = k
      · have he : ¬e_k = k := fun he2 => h3 (h32.trans he2.symm)
        rw [if_pos h32, if_pos h32, if_neg he]
      · rw [if_neg h32, if_neg h32, ih]

theorem groupFold_keys_nodup (ps : List (String × String)) :
    ∀ g, (g.map Prod.fst).Nodup →
      ((ps.foldl (fun g p => insertGrouped g (top_section p.1) (p.2, p.1)) g).map
        Prod.fst).Nodup := by
  induction ps with
  | nil => intro g h; simpa using h
  | cons p ps ih =>
    intro g h
    simp only [List.foldl_cons]
    exact ih _ (insertGrouped_keys_nodup g _ _ h)

theorem groupFold_consistent (ps : List (String × String)) :
    ∀ g, (∀ kv ∈ g, ∀ x ∈ kv.2, top_section x.2 = kv.1) →
      ∀ kv ∈ ps.foldl (fun g p => insertGrouped g (top_section p.1) (p.2, p.1)) g,
        ∀ x ∈ kv.2, top_section x.2 = kv.1 := by
  induction ps with
  | nil => intro g h; simpa using h
  | cons p ps ih =>
    intro g h
    simp only [List.foldl_cons]
    exact ih _ (insertGrouped_consistent g _ _ h rfl)

theorem groupFold_flatten (ps : List (String × String)) :
    ∀ g, ((ps.foldl (fun g p => insertGrouped g (top_section p.1) (p.2, p.1)) g).map
        Prod.snd).flatten.Perm
      ((g.map Prod.snd).flatten ++ ps.map (fun p => (p.2, p.1))) := by
  induction ps with
  | nil => intro g; simp
  | cons p ps ih =>
    intro g
    simp only [List.foldl_cons, List.map_cons]
    refine (ih _).trans ?_
    refine ((insertGrouped_flatten g (top_section p.1) (p.2, p.1)).append_right
      (ps.map (fun p => (p.2, p.1)))).trans ?_
    rw [List.append_assoc, List.singleton_append]

theorem groupFold_lookup (ps : List (String × String)) :
    ∀ g k, lookupG
        (ps.foldl (fun g p => insertGrouped g (top_section p.1) (p.2, p.1)) g) k =
      lookupG g k ++
        (ps.filter (fun p => top_section p.1 == k)).map (fun p => (p.2, p.1)) := by
  induction ps with
  | nil => intro g k; simp
  | cons p ps ih =>
    intro g k
    simp only [List.foldl_cons, List.filter_cons]
    rw [ih, lookupG_insertGrouped]
    by_cases h : top_section p.1 = k
    · rw [if_pos h, if_pos (by simpa using h)]
      rw [List.map_cons, List.append_assoc, List.singleton_append]
    · rw [if_neg h, if_neg (by simpa using h)]

theorem groupOf_eq_filter (pages : List (String × String)) (k : String) :
    groupOf pages k =
      (pages.filter (fun p => top_section p.1 == k)).map (fun p => (p.2, p.1)) := by
  unfold groupOf groupPages
  rw [groupFold_lookup, lookupG_nil, List.nil_append]

theorem strLe_total (a b : String) : strLe a b = true ∨ strLe b a = true := by
  rcases le_total a b with h | h
  · exact Or.inl (decide_eq_true h)
  · exact Or.inr (decide_eq_true h)

theorem strLe_trans (a b c : String) : strLe a b = true → strLe b c = true →
    strLe a c = true := by
  intro h1 h2
  exact decide_eq_true (le_trans (of_decide_eq_true h1) (of_decide_eq_true h2))

theorem lenLe_total (a b : String × String) :
    lenLe a b = true ∨ lenLe b a = true := by
  rcases Nat.le_total a.2.length b.2.length with h | h
  · exact Or.inl (decide_eq_true h)
  · exact Or.inr (decide_eq_true h)

theorem lenLe_trans (a b c : String × String) : lenLe a b = true →
    lenLe b c = true → lenLe a c = true := by
  intro h1 h2
  exact decide_eq_true (le_trans (of_decide_eq_true h1) (of_decide_eq_true h2))

/-- C7: the grouped dictionary of group_and_format has pairwise distinct
section keys, every stored entry sits under the key of its own URL, the
entries across all sections are exactly the input pages (as title-url
pairs), and the emitted section order is a permutation of the keys that is
lexicographically sorted apart from "Home", which is first whenever it is
present. -/
theorem group_and_format_partition_and_order (pages : List (String × String)) :
    ((groupPages pages).map Prod.fst).Nodup ∧
    (∀ kv ∈ groupPages pages, ∀ x ∈ kv.2, top_section x.2 = kv.1) ∧
    ((groupPages pages).map Prod.snd).flatten.Perm
      (pages.map (fun p => (p.2, p.1))) ∧
    (sectionsOf pages).Perm ((groupPages pages).map Prod.fst) ∧
    List.Pairwise (fun a b => a ≤ b)
      ((sectionsOf pages).filter (fun k => !(k == "Home"))) ∧
    ("Home" ∈ sectionsOf pages → (sectionsOf pages).head? = some "Home") := by
  have hkeys : ((groupPages pages).map Prod.fst).Nodup :=
    groupFold_keys_nodup pages [] (by simp)
  have hcons := groupFold_consistent pages [] (by simp)
  have hflat : ((groupPages pages).map Prod.snd).flatten.Perm
      (pages.map (fun p => (p.2, p.1))) := by
    have := groupFold_flatten pages []
    simpa using this
  have hsec : sectionsOf pages =
      if "Home" ∈ insSort strLe ((groupPages pages).map Prod.fst) then
        "Home" :: (insSort strLe ((groupPages pages).map Prod.fst)).erase "Home"
      else insSort strLe ((groupPages pages).map Prod.fst) := rfl
  have hsk_perm := insSort_perm strLe ((groupPages pages).map Prod.fst)
  have hsk_sorted := insSort_sorted strLe strLe_total strLe_trans
    ((groupPages pages).map Prod.fst)
  refine ⟨hkeys, hcons, hflat, ?_, ?_, ?_⟩
  · rw [hsec]
    split
    · rename_i hh
      exact (List.perm_cons_erase hh).symm.trans hsk_perm
    · exact hsk_perm
  · rw [hsec]
    split
    · rw [List.filter_cons, if_neg (by simp)]
      refine List.Pairwise.imp (fun h => of_decide_eq_true h) ?_
      exact List.Pairwise.filter _
        (List.Pairwise.sublist (List.erase_sublist _ _) hsk_sorted)
    · refine List.Pairwise.imp (fun h => of_decide_eq_true h) ?_
      exact List.Pairwise.filter _ hsk_sorted
  · rw [hsec]
    intro hmem
    by_cases hh : "Home" ∈ insSort strLe ((groupPages pages).map Prod.fst)
    · rw [if_pos hh]
      rfl
    · rw [if_neg hh] at hmem
      exact absurd hmem hh

/-- C7 witness: on the concrete Page Store pagesH the section "Home" is
present and emitted first. -/
theorem group_and_format_partition_witness :
    (sectionsOf pagesH).head? = some "Home" :=
  (group_and_format_partition_and_order pagesH).2.2.2.2.2 (by decide)

/-- C8: inside every section, the emitted links are sorted by ascending URL
length, they are a permutation of the section's discovery-ordered group,
equal-length entries keep their relative discovery order (the filter at any
fixed URL length is unchanged by the sort), and the group itself lists the
pages of that section key in discovery order. -/
theorem group_and_format_section_sorting (pages : List (String × String))
    (k : String) :
    List.Pairwise (fun a b => a.2.length ≤ b.2.length)
      (sortedLinks (groupOf pages k)) ∧
    (∀ n, (sortedLinks (groupOf pages k)).filter (fun e => e.2.length == n) =
      (groupOf pages k).filter (fun e => e.2.length == n)) ∧
    (sortedLinks (groupOf pages k)).Perm (groupOf pages k) ∧
    groupOf pages k =
      (pages.filter (fun p => top_section p.1 == k)).map (fun p => (p.2, p.1)) := by
  refine ⟨?_, ?_, ?_, groupOf_eq_filter pages k⟩
  · refine List.Pairwise.imp (fun h => of_decide_eq_true h) ?_
    exact insSort_sorted lenLe lenLe_total lenLe_trans (groupOf pages k)
  · intro n
    refine insSort_filter lenLe (fun e => e.2.length == n) ?_ (groupOf pages k)
    intro a b ha hb
    have ha2 : a.2.length = n := by simpa using ha
    have hb2 : b.2.length = n := by simpa using hb
    exact decide_eq_true (by omega)
  · exact insSort_perm lenLe (groupOf pages k)

/-- C8 witness: the sorted links of the "a" section of pagesW are a
permutation of its discovery-ordered group, applied at a concrete store. -/
theorem group_and_format_section_sorting_witness :
    (sortedLinks (groupOf pagesW "a")).filter (fun e => e.2.length == 20) =
      (groupOf pagesW "a").filter (fun e => e.2.length == 20) :=
  (group_and_format_section_sorting pagesW "a").2.1 20

/-- C9 counterexample: the enhanced_crawler.py formatter embeds the current
date in its output, so two runs of group_and_format on the same Page Store
and configuration made on different days give different bytes. -/
theorem format_idempotence_counterexample :
    Enhanced.group_and_format pagesC9 "S" "2025-01-01" ≠
      Enhanced.group_and_format pagesC9 "S" "2025-01-02" := by
  decide

/-- C9 amended: both formatters are pure functions of their inputs: runs on
the same Page Store, site name, base URL, and (for the enhanced variant)
the same generation date produce byte-identical output. -/
theorem format_determinism_amended (p1 p2 : List (String × String))
    (n1 n2 b1 b2 d1 d2 : String) (hp : p1 = p2) (hn : n1 = n2) (hb : b1 = b2)
    (hd : d1 = d2) :
    Generator.group_and_format p1 n1 b1 = Generator.group_and_format p2 n2 b2 ∧
    Enhanced.group_and_format p1 n1 d1 = Enhanced.group_and_format p2 n2 d2 := by
  subst hp hn hb hd
  exact ⟨rfl, rfl⟩

/-- C9 witness: determinism at a concrete Page Store and configuration. -/
theorem format_determinism_witness :
    Generator.group_and_format pagesW "Site" "https://x.test" =
      Generator.group_and_format pagesW "Site" "https://x.test" :=
  (format_determinism_amended pagesW pagesW "Site" "Site" "https://x.test"
    "https://x.test" "2025-01-01" "2025-01-01" rfl rfl rfl rfl).1

end LlmsText
